import Mathlib

/-!
Verification of the stackfmt library (src/stackfmt.rs): a no-allocation
formatting sink that writes string fragments into a caller-supplied byte
buffer, truncating at a UTF-8 code-point boundary when the buffer is too
small.

Embedding conventions:
* Bytes are `Nat` values (valid UTF-8 forces them below 256); byte strings
  are `List Nat`.
* Rust panics (out-of-bounds indexing, `usize` underflow) are modelled by
  `Option`: `none` is a panic.
* The state `WriteTo { buffer, used, overflow }` mirrors the Rust struct;
  the mutable buffer is threaded explicitly.
* The external formatting engine (`core::fmt`) is out of scope in the
  source as well; it is abstracted as the list of fragments it feeds to
  `write_str` plus a flag saying whether the engine itself reported
  failure after emitting them.
-/

/-- A byte is in the continuation range 0x80..=0xBF.  This is the
standard (range-based) notion used by the UTF-8 well-formedness
definition below; it coincides with the source's bit test
`(b & 0xC0) == 0x80` on genuine bytes (`b < 256`). -/
def contB (b : Nat) : Bool := decide (0x80 ≤ b ∧ b ≤ 0xBF)

/-- Constraint on the first byte after a 3-byte lead, per RFC 3629
(excludes overlong encodings and surrogates). -/
def e1ok (b c1 : Nat) : Bool :=
  if b = 0xE0 then decide (0xA0 ≤ c1 ∧ c1 ≤ 0xBF)
  else if b = 0xED then decide (0x80 ≤ c1 ∧ c1 ≤ 0x9F)
  else contB c1

/-- Constraint on the first byte after a 4-byte lead, per RFC 3629
(excludes overlong encodings and values above U+10FFFF). -/
def f1ok (b c1 : Nat) : Bool :=
  if b = 0xF0 then decide (0x90 ≤ c1 ∧ c1 ≤ 0xBF)
  else if b = 0xF4 then decide (0x80 ≤ c1 ∧ c1 ≤ 0x8F)
  else contB c1

/-- Strict UTF-8 well-formedness of a byte sequence (RFC 3629): the
guarantee Rust's `&str` gives for the bytes of every fragment passed to
`write_str`, and the property `as_str` relies on for its unchecked
reinterpretation. -/
def validUtf8 : List Nat → Bool
  | [] => true
  | b :: t =>
    if b ≤ 0x7F then validUtf8 t
    else if b < 0xC2 then false
    else
      match t with
      | [] => false
      | c1 :: t1 =>
        if b ≤ 0xDF then contB c1 && validUtf8 t1
        else
          match t1 with
          | [] => false
          | c2 :: t2 =>
            if b ≤ 0xEF then e1ok b c1 && contB c2 && validUtf8 t2
            else
              match t2 with
              | [] => false
              | c3 :: t3 =>
                if b ≤ 0xF4 then f1ok b c1 && contB c2 && contB c3 && validUtf8 t3
                else false

/-- `is_not_first_utf8` from the source: true if the byte pattern is
10xx'xxxx, i.e. the byte is not the start of a UTF-8 char. -/
def is_not_first_utf8 (ch : Nat) : Bool := ch &&& 0xC0 == 0x80

/-- The backward walk of `find_closest_boundary`: with `res_len = r`,
the Rust loop reads `raw_string[res_len - 1]`; if that byte is not a
continuation byte it breaks with `res_len - 1`, otherwise it decrements
`res_len`.  Reaching `res_len = 0` underflows `res_len - 1` (a panic,
modelled as `none`), as does reading out of bounds. -/
def fcb_loop (raw_string : List Nat) : Nat → Option Nat
  | 0 => none
  | r + 1 =>
    match raw_string.get? r with
    | none => none
    | some b => if is_not_first_utf8 b then fcb_loop raw_string r else some r

/-- `find_closest_boundary` from the source.  Precondition (documented
and debug-asserted in the source): `max_len < raw_string.length`.
`none` models a panic. -/
def find_closest_boundary (raw_string : List Nat) (max_len : Nat) : Option Nat :=
  if max_len = 0 then some 0
  else
    match raw_string.get? max_len with
    | none => none
    | some b => if !is_not_first_utf8 b then some max_len else fcb_loop raw_string max_len

/-- Result of a `core::fmt` write call (`fmt::Result`). -/
inductive FmtResult where
  | ok : FmtResult
  | error : FmtResult
deriving DecidableEq, Repr

/-- The `WriteTo<'a>` struct from the source: the borrowed byte buffer,
the cursor `used` (position inside buffer where the written string
ends), and the truncation flag `overflow`. -/
structure WriteTo where
  buffer : List Nat
  used : Nat
  overflow : Bool
deriving DecidableEq, Repr

/-- `WriteTo::new`: fresh sink over the given buffer. -/
def WriteTo.new (buffer : List Nat) : WriteTo :=
  { buffer := buffer, used := 0, overflow := false }

/-- `WriteTo::as_str`: the prefix `buffer[..used]` reinterpreted as a
string (the unchecked reinterpretation returns exactly these bytes). -/
def WriteTo.as_str (w : WriteTo) : List Nat := w.buffer.take w.used

/-- `buf[pos..pos + data.length].copy_from_slice(data)`: overwrite the
bytes at positions `pos..pos + data.length` with `data`, leaving the
rest unchanged.  Faithful whenever `pos + data.length ≤ buf.length`,
which holds at both call sites in `write_str`. -/
def setRange (buf : List Nat) (pos : Nat) (data : List Nat) : List Nat :=
  buf.take pos ++ data ++ buf.drop (pos + data.length)

/-- `WriteTo::write_str` from the source.  `none` models a panic (the
slice `&mut self.buffer[self.used..]` panics when `used > buffer.len()`,
and `find_closest_boundary` can panic on its own).  On success it
returns the new state together with the `fmt::Result` value. -/
def write_str (w : WriteTo) (raw_s : List Nat) : Option (WriteTo × FmtResult) :=
  if w.overflow then some (w, FmtResult.ok)
  else if w.buffer.length < w.used then none
  else
    let remaining := w.buffer.length - w.used
    if raw_s.length ≤ remaining then
      some ({ buffer := setRange w.buffer w.used raw_s,
              used := w.used + raw_s.length,
              overflow := w.overflow }, FmtResult.ok)
    else
      match find_closest_boundary raw_s remaining with
      | none => none
      | some bs =>
        some ({ buffer := setRange w.buffer w.used (raw_s.take bs),
                used := w.used + bs,
                overflow := true }, FmtResult.ok)

/-- The fragment-feeding loop of `core::fmt::write`: feed the fragments
to the sink in order, stopping early if a write reports an error (which
`write_str` never does). -/
def writeAll (w : WriteTo) (frags : List (List Nat)) : Option (WriteTo × FmtResult) :=
  match frags with
  | [] => some (w, FmtResult.ok)
  | s :: rest =>
    match write_str w s with
    | none => none
    | some (w', FmtResult.ok) => writeAll w' rest
    | some (w', FmtResult.error) => some (w', FmtResult.error)

/-- The `fmt::Arguments` handed to `fmt_truncate`, abstracting the
external formatting engine: the UTF-8 fragments it emits to the sink,
and whether the engine itself reports failure (e.g. a `Display`
implementation returning `Err`) after emitting them. -/
structure FmtArguments where
  frags : List (List Nat)
  engineErr : Bool
deriving DecidableEq, Repr

/-- `fmt_truncate` from the source: run `fmt::write` on a fresh sink
over `buffer`; on `Ok` return `as_str`, on `Err` return the empty
string.  The result models the pair (returned string view, buffer
contents after the call) — the caller keeps the buffer, so its final
contents are observable. -/
def fmt_truncate (buffer : List Nat) (args : FmtArguments) :
    Option (List Nat × List Nat) :=
  match writeAll (WriteTo.new buffer) args.frags with
  | none => none
  | some (w, FmtResult.error) => some ([], w.buffer)
  | some (w, FmtResult.ok) =>
    if args.engineErr then some ([], w.buffer) else some (w.as_str, w.buffer)

/-- Invariant tying a sink state to the concatenation `written` of all
fragments fed to it so far (`cap` is the original buffer length): the
buffer prefix `buffer[0..used]` is exactly the first `used` bytes of
`written` and is well-formed UTF-8; before overflow all of `written`
has been copied (`used = written.length`); after overflow `written` no
longer fits and `used` is the largest well-formed cut of `written`
that fits in `cap`. -/
def SinkInv (cap : Nat) (written : List Nat) (w : WriteTo) : Prop :=
  w.buffer.length = cap ∧
  w.used ≤ cap ∧
  w.buffer.take w.used = written.take w.used ∧
  validUtf8 (w.buffer.take w.used) = true ∧
  (w.overflow = false → w.used = written.length) ∧
  (w.overflow = true → cap < written.length ∧ w.used ≤ written.length ∧
    ∀ k, k ≤ cap → validUtf8 (written.take k) = true → k ≤ w.used)

/-! ### Byte-level facts -/

set_option maxRecDepth 4096 in
/-- On genuine bytes the source's bit test `(b & 0xC0) == 0x80` agrees
with the range test `0x80 ≤ b ≤ 0xBF`. -/
theorem is_not_first_eq_contB : ∀ b : Nat, b < 256 → is_not_first_utf8 b = contB b := by
  decide

theorem contB_range {c : Nat} (h : contB c = true) : 0x80 ≤ c ∧ c ≤ 0xBF := by
  simpa [contB] using h

theorem contB_false_of_lt {c : Nat} (h : c < 0x80) : contB c = false := by
  simp [contB]; omega

theorem contB_false_of_gt {c : Nat} (h : 0xBF < c) : contB c = false := by
  simp [contB]; omega

theorem e1ok_contB {b c1 : Nat} (h : e1ok b c1 = true) : contB c1 = true := by
  simp only [e1ok] at h
  split at h
  · simp only [contB, decide_eq_true_eq] at h ⊢; omega
  · split at h
    · simp only [contB, decide_eq_true_eq] at h ⊢; omega
    · exact h

theorem f1ok_contB {b c1 : Nat} (h : f1ok b c1 = true) : contB c1 = true := by
  simp only [f1ok] at h
  split at h
  · simp only [contB, decide_eq_true_eq] at h ⊢; omega
  · split at h
    · simp only [contB, decide_eq_true_eq] at h ⊢; omega
    · exact h

/-! ### Shape equations for `validUtf8` -/

theorem validUtf8_nil : validUtf8 [] = true := rfl

theorem validUtf8_ascii {b : Nat} (t : List Nat) (h : b ≤ 0x7F) :
    validUtf8 (b :: t) = validUtf8 t := by
  rw [validUtf8.eq_def]
  dsimp only
  rw [if_pos h]

theorem validUtf8_badlead {b : Nat} (t : List Nat) (h1 : 0x80 ≤ b) (h2 : b ≤ 0xC1) :
    validUtf8 (b :: t) = false := by
  rw [validUtf8.eq_def]
  dsimp only
  rw [if_neg (by omega), if_pos (by omega)]

theorem validUtf8_one {b : Nat} (h : 0xC2 ≤ b) : validUtf8 [b] = false := by
  rw [validUtf8.eq_def]
  dsimp only
  rw [if_neg (by omega), if_neg (by omega)]

theorem validUtf8_lead2 {b : Nat} (c1 : Nat) (t1 : List Nat)
    (h1 : 0xC2 ≤ b) (h2 : b ≤ 0xDF) :
    validUtf8 (b :: c1 :: t1) = (contB c1 && validUtf8 t1) := by
  rw [validUtf8.eq_def]
  dsimp only
  rw [if_neg (by omega), if_neg (by omega)]
  simp only [if_pos h2]

theorem validUtf8_two {b : Nat} (c1 : Nat) (h : 0xE0 ≤ b) :
    validUtf8 [b, c1] = false := by
  rw [validUtf8.eq_def]
  dsimp only
  rw [if_neg (by omega), if_neg (by omega)]
  simp only [if_neg (by omega : ¬ b ≤ 0xDF)]

theorem validUtf8_lead3 {b : Nat} (c1 c2 : Nat) (t2 : List Nat)
    (h1 : 0xE0 ≤ b) (h2 : b ≤ 0xEF) :
    validUtf8 (b :: c1 :: c2 :: t2) = (e1ok b c1 && contB c2 && validUtf8 t2) := by
  rw [validUtf8.eq_def]
  dsimp only
  rw [if_neg (by omega), if_neg (by omega)]
  simp only [if_neg (by omega : ¬ b ≤ 0xDF), if_pos h2]

theorem validUtf8_three {b : Nat} (c1 c2 : Nat) (h : 0xF0 ≤ b) :
    validUtf8 [b, c1, c2] = false := by
  rw [validUtf8.eq_def]
  dsimp only
  rw [if_neg (by omega), if_neg (by omega)]
  simp only [if_neg (by omega : ¬ b ≤ 0xDF), if_neg (by omega : ¬ b ≤ 0xEF)]

theorem validUtf8_lead4 {b : Nat} (c1 c2 c3 : Nat) (t3 : List Nat)
    (h1 : 0xF0 ≤ b) (h2 : b ≤ 0xF4) :
    validUtf8 (b :: c1 :: c2 :: c3 :: t3) =
      (f1ok b c1 && contB c2 && contB c3 && validUtf8 t3) := by
  rw [validUtf8.eq_def]
  dsimp only
  rw [if_neg (by omega), if_neg (by omega)]
  simp only [if_neg (by omega : ¬ b ≤ 0xDF), if_neg (by omega : ¬ b ≤ 0xEF), if_pos h2]

theorem validUtf8_hugelead {b : Nat} (t : List Nat) (h : 0xF5 ≤ b) :
    validUtf8 (b :: t) = false := by
  match t with
  | [] => exact validUtf8_one (by omega)
  | [c1] => exact validUtf8_two c1 (by omega)
  | [c1, c2] => exact validUtf8_three c1 c2 (by omega)
  | c1 :: c2 :: c3 :: t3 =>
    rw [validUtf8.eq_def]
    dsimp only
    rw [if_neg (by omega), if_neg (by omega)]
    simp only [if_neg (by omega : ¬ b ≤ 0xDF), if_neg (by omega : ¬ b ≤ 0xEF),
      if_neg (by omega : ¬ b ≤ 0xF4)]

/-! ### Structural facts about `validUtf8` -/

/-- Every byte of a well-formed UTF-8 sequence is a genuine byte. -/
theorem validUtf8_byte_lt (s : List Nat) :
    validUtf8 s = true → ∀ x ∈ s, x < 256 := by
  induction s using validUtf8.induct with
  | case1 => simp
  | case2 b t h1 ih =>
    intro hv x hx
    rw [validUtf8_ascii t h1] at hv
    rcases List.mem_cons.mp hx with rfl | hx
    · omega
    · exact ih hv x hx
  | case3 b t h1 h2 =>
    intro hv
    rw [validUtf8_badlead t (by omega) (by omega)] at hv
    simp at hv
  | case4 b h1 h2 =>
    intro hv
    rw [validUtf8_one (by omega)] at hv
    simp at hv
  | case5 b h1 h2 c1 t1 h3 ih =>
    intro hv x hx
    rw [validUtf8_lead2 c1 t1 (by omega) h3, Bool.and_eq_true] at hv
    rcases List.mem_cons.mp hx with rfl | hx
    · omega
    rcases List.mem_cons.mp hx with rfl | hx
    · have := contB_range hv.1; omega
    · exact ih hv.2 x hx
  | case6 b h1 h2 c1 h3 =>
    intro hv
    rw [validUtf8_two c1 (by omega)] at hv
    simp at hv
  | case7 b h1 h2 c1 h3 c2 t2 h4 ih =>
    intro hv x hx
    rw [validUtf8_lead3 c1 c2 t2 (by omega) h4] at hv
    simp only [Bool.and_eq_true] at hv
    rcases List.mem_cons.mp hx with rfl | hx
    · omega
    rcases List.mem_cons.mp hx with rfl | hx
    · have := contB_range (e1ok_contB hv.1.1); omega
    rcases List.mem_cons.mp hx with rfl | hx
    · have := contB_range hv.1.2; omega
    · exact ih hv.2 x hx
  | case8 b h1 h2 c1 h3 c2 h4 =>
    intro hv
    rw [validUtf8_three c1 c2 (by omega)] at hv
    simp at hv
  | case9 b h1 h2 c1 h3 c2 h4 c3 t3 h5 ih =>
    intro hv x hx
    rw [validUtf8_lead4 c1 c2 c3 t3 (by omega) h5] at hv
    simp only [Bool.and_eq_true] at hv
    rcases List.mem_cons.mp hx with rfl | hx
    · omega
    rcases List.mem_cons.mp hx with rfl | hx
    · have := contB_range (f1ok_contB hv.1.1.1); omega
    rcases List.mem_cons.mp hx with rfl | hx
    · have := contB_range hv.1.1.2; omega
    rcases List.mem_cons.mp hx with rfl | hx
    · have := contB_range hv.1.2; omega
    · exact ih hv.2 x hx
  | case10 b h1 h2 c1 h3 c2 h4 c3 t3 h5 =>
    intro hv
    rw [validUtf8_hugelead _ (by omega)] at hv
    simp at hv

/-- A well-formed UTF-8 sequence starts with a non-continuation byte. -/
theorem validUtf8_head_noncont {b : Nat} {t : List Nat}
    (hv : validUtf8 (b :: t) = true) : contB b = false := by
  by_cases h1 : b ≤ 0x7F
  · exact contB_false_of_lt (by omega)
  by_cases h2 : b < 0xC2
  · rw [validUtf8_badlead t (by omega) (by omega)] at hv; simp at hv
  · exact contB_false_of_gt (by omega)

/-- Concatenating two well-formed UTF-8 sequences yields a well-formed
sequence. -/
theorem validUtf8_append (s t : List Nat) :
    validUtf8 s = true → validUtf8 t = true → validUtf8 (s ++ t) = true := by
  induction s using validUtf8.induct with
  | case1 => intro _ ht; simpa using ht
  | case2 b t0 h1 ih =>
    intro hv ht
    rw [validUtf8_ascii t0 h1] at hv
    rw [List.cons_append, validUtf8_ascii _ h1]
    exact ih hv ht
  | case3 b t0 h1 h2 =>
    intro hv ht
    rw [validUtf8_badlead t0 (by omega) (by omega)] at hv
    simp at hv
  | case4 b h1 h2 =>
    intro hv ht
    rw [validUtf8_one (by omega)] at hv
    simp at hv
  | case5 b h1 h2 c1 t1 h3 ih =>
    intro hv ht
    rw [validUtf8_lead2 c1 t1 (by omega) h3, Bool.and_eq_true] at hv
    rw [List.cons_append, List.cons_append, validUtf8_lead2 _ _ (by omega) h3]
    rw [Bool.and_eq_true]
    exact ⟨hv.1, ih hv.2 ht⟩
  | case6 b h1 h2 c1 h3 =>
    intro hv ht
    rw [validUtf8_two c1 (by omega)] at hv
    simp at hv
  | case7 b h1 h2 c1 h3 c2 t2 h4 ih =>
    intro hv ht
    rw [validUtf8_lead3 c1 c2 t2 (by omega) h4] at hv
    simp only [Bool.and_eq_true] at hv
    rw [List.cons_append, List.cons_append, List.cons_append,
      validUtf8_lead3 _ _ _ (by omega) h4]
    simp only [Bool.and_eq_true]
    exact ⟨⟨hv.1.1, hv.1.2⟩, ih hv.2 ht⟩
  | case8 b h1 h2 c1 h3 c2 h4 =>
    intro hv ht
    rw [validUtf8_three c1 c2 (by omega)] at hv
    simp at hv
  | case9 b h1 h2 c1 h3 c2 h4 c3 t3 h5 ih =>
    intro hv ht
    rw [validUtf8_lead4 c1 c2 c3 t3 (by omega) h5] at hv
    simp only [Bool.and_eq_true] at hv
    rw [List.cons_append, List.cons_append, List.cons_append, List.cons_append,
      validUtf8_lead4 _ _ _ _ (by omega) h5]
    simp only [Bool.and_eq_true]
    exact ⟨⟨⟨hv.1.1.1, hv.1.1.2⟩, hv.1.2⟩, ih hv.2 ht⟩
  | case10 b h1 h2 c1 h3 c2 h4 c3 t3 h5 =>
    intro hv ht
    rw [validUtf8_hugelead _ (by omega)] at hv
    simp at hv

/-- Cutting a well-formed UTF-8 sequence right before a non-continuation
byte keeps it well-formed. -/
theorem validUtf8_take_noncont (s : List Nat) :
    ∀ n, validUtf8 s = true → n < s.length → contB (s.getD n 0) = false →
      validUtf8 (s.take n) = true := by
  induction s using validUtf8.induct with
  | case1 => intro n _ hn _; simp at hn
  | case2 b t h1 ih =>
    intro n hv hn hb
    rw [validUtf8_ascii t h1] at hv
    rcases n with _ | m
    · simp [validUtf8_nil]
    · rw [List.take_succ_cons, validUtf8_ascii _ h1]
      exact ih m hv (by simpa using hn) (by simpa using hb)
  | case3 b t h1 h2 =>
    intro n hv _ _
    rw [validUtf8_badlead t (by omega) (by omega)] at hv
    simp at hv
  | case4 b h1 h2 =>
    intro n hv _ _
    rw [validUtf8_one (by omega)] at hv
    simp at hv
  | case5 b h1 h2 c1 t1 h3 ih =>
    intro n hv hn hb
    rw [validUtf8_lead2 c1 t1 (by omega) h3, Bool.and_eq_true] at hv
    rcases n with _ | n1
    · simp [validUtf8_nil]
    rcases n1 with _ | m
    · rw [List.getD_cons_succ, List.getD_cons_zero] at hb
      rw [hv.1] at hb
      simp at hb
    · rw [List.take_succ_cons, List.take_succ_cons,
        validUtf8_lead2 _ _ (by omega) h3, Bool.and_eq_true]
      refine ⟨hv.1, ih m hv.2 (by simpa using hn) ?_⟩
      simpa using hb
  | case6 b h1 h2 c1 h3 =>
    intro n hv _ _
    rw [validUtf8_two c1 (by omega)] at hv
    simp at hv
  | case7 b h1 h2 c1 h3 c2 t2 h4 ih =>
    intro n hv hn hb
    rw [validUtf8_lead3 c1 c2 t2 (by omega) h4] at hv
    simp only [Bool.and_eq_true] at hv
    rcases n with _ | n1
    · simp [validUtf8_nil]
    rcases n1 with _ | n2
    · rw [List.getD_cons_succ, List.getD_cons_zero] at hb
      rw [e1ok_contB hv.1.1] at hb
      simp at hb
    rcases n2 with _ | m
    · rw [List.getD_cons_succ, List.getD_cons_succ, List.getD_cons_zero] at hb
      rw [hv.1.2] at hb
      simp at hb
    · rw [List.take_succ_cons, List.take_succ_cons, List.take_succ_cons,
        validUtf8_lead3 _ _ _ (by omega) h4]
      simp only [Bool.and_eq_true]
      refine ⟨⟨hv.1.1, hv.1.2⟩, ih m hv.2 (by simpa using hn) ?_⟩
      simpa using hb
  | case8 b h1 h2 c1 h3 c2 h4 =>
    intro n hv _ _
    rw [validUtf8_three c1 c2 (by omega)] at hv
    simp at hv
  | case9 b h1 h2 c1 h3 c2 h4 c3 t3 h5 ih =>
    intro n hv hn hb
    rw [validUtf8_lead4 c1 c2 c3 t3 (by omega) h5] at hv
    simp only [Bool.and_eq_true] at hv
    rcases n with _ | n1
    · simp [validUtf8_nil]
    rcases n1 with _ | n2
    · rw [List.getD_cons_succ, List.getD_cons_zero] at hb
      rw [f1ok_contB hv.1.1.1] at hb
      simp at hb
    rcases n2 with _ | n3
    · rw [List.getD_cons_succ, List.getD_cons_succ, List.getD_cons_zero] at hb
      rw [hv.1.1.2] at hb
      simp at hb
    rcases n3 with _ | m
    · rw [List.getD_cons_succ, List.getD_cons_succ, List.getD_cons_succ,
        List.getD_cons_zero] at hb
      rw [hv.1.2] at hb
      simp at hb
    · rw [List.take_succ_cons, List.take_succ_cons, List.take_succ_cons,
        List.take_succ_cons, validUtf8_lead4 _ _ _ _ (by omega) h5]
      simp only [Bool.and_eq_true]
      refine ⟨⟨⟨hv.1.1.1, hv.1.1.2⟩, hv.1.2⟩, ih m hv.2 (by simpa using hn) ?_⟩
      simpa using hb
  | case10 b h1 h2 c1 h3 c2 h4 c3 t3 h5 =>
    intro n hv _ _
    rw [validUtf8_hugelead _ (by omega)] at hv
    simp at hv

/-- Conversely, if a length-`n` cut of a well-formed UTF-8 sequence is
well-formed, the byte at position `n` is not a continuation byte (a
well-formed cut never lands inside a code point). -/
theorem validUtf8_noncont_of_take (s : List Nat) :
    ∀ n, validUtf8 s = true → n < s.length → validUtf8 (s.take n) = true →
      contB (s.getD n 0) = false := by
  induction s using validUtf8.induct with
  | case1 => intro n _ hn _; simp at hn
  | case2 b t h1 ih =>
    intro n hv hn ht
    rw [validUtf8_ascii t h1] at hv
    rcases n with _ | m
    · rw [List.getD_cons_zero]
      exact contB_false_of_lt (by omega)
    · rw [List.take_succ_cons, validUtf8_ascii _ h1] at ht
      rw [List.getD_cons_succ]
      exact ih m hv (by simpa using hn) ht
  | case3 b t h1 h2 =>
    intro n hv _ _
    rw [validUtf8_badlead t (by omega) (by omega)] at hv
    simp at hv
  | case4 b h1 h2 =>
    intro n hv _ _
    rw [validUtf8_one (by omega)] at hv
    simp at hv
  | case5 b h1 h2 c1 t1 h3 ih =>
    intro n hv hn ht
    rw [validUtf8_lead2 c1 t1 (by omega) h3, Bool.and_eq_true] at hv
    rcases n with _ | n1
    · rw [List.getD_cons_zero]
      exact contB_false_of_gt (by omega)
    rcases n1 with _ | m
    · rw [show List.take 1 (b :: c1 :: t1) = [b] by simp] at ht
      rw [validUtf8_one (by omega)] at ht
      simp at ht
    · rw [List.take_succ_cons, List.take_succ_cons,
        validUtf8_lead2 _ _ (by omega) h3, Bool.and_eq_true] at ht
      rw [List.getD_cons_succ, List.getD_cons_succ]
      exact ih m hv.2 (by simpa using hn) ht.2
  | case6 b h1 h2 c1 h3 =>
    intro n hv _ _
    rw [validUtf8_two c1 (by omega)] at hv
    simp at hv
  | case7 b h1 h2 c1 h3 c2 t2 h4 ih =>
    intro n hv hn ht
    rw [validUtf8_lead3 c1 c2 t2 (by omega) h4] at hv
    simp only [Bool.and_eq_true] at hv
    rcases n with _ | n1
    · rw [List.getD_cons_zero]
      exact contB_false_of_gt (by omega)
    rcases n1 with _ | n2
    · rw [show List.take 1 (b :: c1 :: c2 :: t2) = [b] by simp] at ht
      rw [validUtf8_one (by omega)] at ht
      simp at ht
    rcases n2 with _ | m
    · rw [show List.take 2 (b :: c1 :: c2 :: t2) = [b, c1] by simp] at ht
      rw [validUtf8_two c1 (by omega)] at ht
      simp at ht
    · rw [List.take_succ_cons, List.take_succ_cons, List.take_succ_cons,
        validUtf8_lead3 _ _ _ (by omega) h4] at ht
      simp only [Bool.and_eq_true] at ht
      rw [List.getD_cons_succ, List.getD_cons_succ, List.getD_cons_succ]
      exact ih m hv.2 (by simpa using hn) ht.2
  | case8 b h1 h2 c1 h3 c2 h4 =>
    intro n hv _ _
    rw [validUtf8_three c1 c2 (by omega)] at hv
    simp at hv
  | case9 b h1 h2 c1 h3 c2 h4 c3 t3 h5 ih =>
    intro n hv hn ht
    rw [validUtf8_lead4 c1 c2 c3 t3 (by omega) h5] at hv
    simp only [Bool.and_eq_true] at hv
    rcases n with _ | n1
    · rw [List.getD_cons_zero]
      exact contB_false_of_gt (by omega)
    rcases n1 with _ | n2
    · rw [show List.take 1 (b :: c1 :: c2 :: c3 :: t3) = [b] by simp] at ht
      rw [validUtf8_one (by omega)] at ht
      simp at ht
    rcases n2 with _ | n3
    · rw [show List.take 2 (b :: c1 :: c2 :: c3 :: t3) = [b, c1] by simp] at ht
      rw [validUtf8_two c1 (by omega)] at ht
      simp at ht
    rcases n3 with _ | m
    · rw [show List.take 3 (b :: c1 :: c2 :: c3 :: t3) = [b, c1, c2] by simp] at ht
      rw [validUtf8_three c1 c2 (by omega)] at ht
      simp at ht
    · rw [List.take_succ_cons, List.take_succ_cons, List.take_succ_cons,
        List.take_succ_cons, validUtf8_lead4 _ _ _ _ (by omega) h5] at ht
      simp only [Bool.and_eq_true] at ht
      rw [List.getD_cons_succ, List.getD_cons_succ, List.getD_cons_succ,
        List.getD_cons_succ]
      exact ih m hv.2 (by simpa using hn) ht.2
  | case10 b h1 h2 c1 h3 c2 h4 c3 t3 h5 =>
    intro n hv _ _
    rw [validUtf8_hugelead _ (by omega)] at hv
    simp at hv

/-! ### The boundary finder -/

theorem get?_eq_some_getD {l : List Nat} {n : Nat} (h : n < l.length) :
    l.get? n = some (l.getD n 0) := by
  rw [List.getD_eq_getElem?_getD, List.get?_eq_getElem?]
  cases hx : l[n]? with
  | none => simp [List.getElem?_eq_none_iff] at hx; omega
  | some b => simp

theorem getD_mem_of_lt {l : List Nat} {n : Nat} (h : n < l.length) :
    l.getD n 0 ∈ l := by
  rw [List.getD_eq_getElem?_getD]
  have hx : l[n]? = some l[n] := List.getElem?_eq_getElem h
  rw [hx]
  exact List.getElem_mem h

/-- On a well-formed UTF-8 sequence the source's bit test agrees with
the range test at every position. -/
theorem validUtf8_is_not_first {s : List Nat} (hv : validUtf8 s = true)
    {k : Nat} (hk : k < s.length) :
    is_not_first_utf8 (s.getD k 0) = contB (s.getD k 0) :=
  is_not_first_eq_contB _ (validUtf8_byte_lt s hv _ (getD_mem_of_lt hk))

/-- The backward walk terminates with `some` and returns the largest
index strictly below its starting point that holds a non-continuation
byte, provided such an index exists (it does for well-formed input:
index 0). -/
theorem fcb_loop_spec (raw : List Nat) :
    ∀ r, r ≤ raw.length →
      (∃ k, k < r ∧ is_not_first_utf8 (raw.getD k 0) = false) →
      ∃ n, fcb_loop raw r = some n ∧ n < r ∧
        is_not_first_utf8 (raw.getD n 0) = false ∧
        ∀ j, n < j → j < r → is_not_first_utf8 (raw.getD j 0) = true := by
  intro r
  induction r with
  | zero =>
    rintro _ ⟨k, hk, _⟩
    omega
  | succ r ih =>
    rintro hr ⟨k, hk, hknc⟩
    have hget : raw.get? r = some (raw.getD r 0) := get?_eq_some_getD (by omega)
    by_cases hc : is_not_first_utf8 (raw.getD r 0) = true
    · have hk' : k < r := by
        rcases Nat.lt_succ_iff_lt_or_eq.mp hk with h | rfl
        · exact h
        · rw [hknc] at hc; simp at hc
      obtain ⟨n, heq, hn, hnc, hmax⟩ := ih (by omega) ⟨k, hk', hknc⟩
      refine ⟨n, ?_, by omega, hnc, ?_⟩
      · simp only [fcb_loop, hget, hc, if_true]
        exact heq
      · intro j hj1 hj2
        rcases Nat.lt_succ_iff_lt_or_eq.mp hj2 with h | rfl
        · exact hmax j hj1 h
        · exact hc
    · have hcf : is_not_first_utf8 (raw.getD r 0) = false := by
        simpa using hc
      refine ⟨r, ?_, by omega, hcf, ?_⟩
      · simp only [fcb_loop, hget, hcf]
        simp
      · intro j hj1 hj2
        omega

/-- Full functional specification of `find_closest_boundary` on
well-formed input: it succeeds and returns the largest index `n ≤
max_len` whose byte is not a continuation byte. -/
theorem find_closest_boundary_spec (s : List Nat) (max_len : Nat)
    (hv : validUtf8 s = true) (hlen : max_len < s.length) :
    ∃ n, find_closest_boundary s max_len = some n ∧ n ≤ max_len ∧
      is_not_first_utf8 (s.getD n 0) = false ∧
      ∀ j, n < j → j ≤ max_len → is_not_first_utf8 (s.getD j 0) = true := by
  have hs0 : is_not_first_utf8 (s.getD 0 0) = false := by
    rw [validUtf8_is_not_first hv (by omega)]
    rcases s with _ | ⟨b, t⟩
    · simp at hlen
    · rw [List.getD_cons_zero]
      exact validUtf8_head_noncont hv
  by_cases h0 : max_len = 0
  · subst h0
    refine ⟨0, ?_, le_refl 0, hs0, ?_⟩
    · simp [find_closest_boundary]
    · intro j hj1 hj2
      omega
  · have hget : s.get? max_len = some (s.getD max_len 0) := get?_eq_some_getD hlen
    by_cases hc : is_not_first_utf8 (s.getD max_len 0) = true
    · obtain ⟨n, heq, hn, hnc, hmax⟩ :=
        fcb_loop_spec s max_len (by omega) ⟨0, by omega, hs0⟩
      refine ⟨n, ?_, by omega, hnc, ?_⟩
      · simp only [find_closest_boundary, if_neg h0, hget, hc]
        simpa using heq
      · intro j hj1 hj2
        rcases Nat.lt_or_ge j max_len with h | h
        · exact hmax j hj1 h
        · have : j = max_len := by omega
          rw [this]
          exact hc
    · have hcf : is_not_first_utf8 (s.getD max_len 0) = false := by
        simpa using hc
      refine ⟨max_len, ?_, le_refl _, hcf, ?_⟩
      · simp only [find_closest_boundary, if_neg h0, hget, hcf]
        simp
      · intro j hj1 hj2
        omega

/-! ### Facts about `setRange` (the `copy_from_slice` model) -/

theorem setRange_length {buf : List Nat} {pos : Nat} {data : List Nat}
    (h : pos + data.length ≤ buf.length) :
    (setRange buf pos data).length = buf.length := by
  simp [setRange]
  omega

theorem setRange_take_copy {buf : List Nat} {pos : Nat} {data : List Nat}
    (h : pos ≤ buf.length) :
    (setRange buf pos data).take (pos + data.length) = buf.take pos ++ data := by
  rw [setRange]
  exact List.take_left' (by simp; omega)

theorem setRange_take_low {buf : List Nat} {pos k : Nat} {data : List Nat}
    (hk : k ≤ pos) (h : pos ≤ buf.length) :
    (setRange buf pos data).take k = buf.take k := by
  rw [setRange]
  rw [List.take_append_of_le_length (by simp; omega),
    List.take_append_of_le_length (by simp; omega)]
  rw [List.take_take, Nat.min_eq_left hk]

theorem setRange_drop_high {buf : List Nat} {pos : Nat} {data : List Nat}
    (h : pos ≤ buf.length) :
    (setRange buf pos data).drop (pos + data.length) = buf.drop (pos + data.length) := by
  rw [setRange]
  exact List.drop_left' (by simp; omega)

/-! ### Transport of `getD` along `take`/`drop` equalities -/

theorem getD_eq_of_take_eq {l l' : List Nat} {k i : Nat}
    (h : l.take k = l'.take k) (hik : i < k) : l.getD i 0 = l'.getD i 0 := by
  rw [List.getD_eq_getElem?_getD, List.getD_eq_getElem?_getD]
  have h1 : (l.take k)[i]? = l[i]? := by simp [List.getElem?_take, hik]
  have h2 : (l'.take k)[i]? = l'[i]? := by simp [List.getElem?_take, hik]
  rw [← h1, ← h2, h]

theorem getD_eq_of_drop_eq {l l' : List Nat} {k i : Nat}
    (h : l.drop k = l'.drop k) (hik : k ≤ i) : l.getD i 0 = l'.getD i 0 := by
  rw [List.getD_eq_getElem?_getD, List.getD_eq_getElem?_getD]
  have h1 : (l.drop k)[i - k]? = l[i]? := by
    rw [List.getElem?_drop]
    congr 1
    omega
  have h2 : (l'.drop k)[i - k]? = l'[i]? := by
    rw [List.getElem?_drop]
    congr 1
    omega
  rw [← h1, ← h2, h]

/-! ### The single-step invariant preservation -/

/-- `write_str` never panics and preserves the sink invariant: feeding
one more well-formed fragment extends `written` by that fragment. -/
theorem write_str_inv {cap : Nat} {written : List Nat} {w : WriteTo} {s : List Nat}
    (hInv : SinkInv cap written w) (hs : validUtf8 s = true) :
    ∃ w', write_str w s = some (w', FmtResult.ok) ∧ SinkInv cap (written ++ s) w' := by
  obtain ⟨hlen, hused, htake, hvalid, hnof, hof⟩ := hInv
  by_cases hovf : w.overflow = true
  · obtain ⟨hcap, husedw, hmax⟩ := hof hovf
    refine ⟨w, by simp [write_str, hovf], hlen, hused, ?_, hvalid, ?_, ?_⟩
    · rw [List.take_append_of_le_length husedw]
      exact htake
    · intro hfalse
      rw [hfalse] at hovf
      cases hovf
    · intro _
      refine ⟨by simp; omega, by simp; omega, ?_⟩
      intro k hk hvk
      rw [List.take_append_of_le_length (by omega)] at hvk
      exact hmax k hk hvk
  · have hovf' : w.overflow = false := by simpa using hovf
    have husedlen : w.used = written.length := hnof hovf'
    have hwr : written.take w.used = written := by
      rw [husedlen]
      exact List.take_length written
    by_cases hfit : s.length ≤ w.buffer.length - w.used
    · -- the whole fragment fits
      refine ⟨{ buffer := setRange w.buffer w.used s,
                used := w.used + s.length,
                overflow := w.overflow }, ?_, ?_⟩
      · rw [write_str, if_neg (by rw [hovf']; simp), if_neg (by omega)]
        simp only [if_pos hfit]
      · refine ⟨?_, ?_, ?_, ?_, ?_, ?_⟩
        · rw [setRange_length (by omega), hlen]
        · simp only []
          omega
        · simp only []
          rw [setRange_take_copy (by omega), htake, hwr]
          rw [show w.used + s.length = (written ++ s).length by simp; omega]
          rw [List.take_length]
        · simp only []
          rw [setRange_take_copy (by omega)]
          exact validUtf8_append _ _ hvalid hs
        · intro _
          simp only []
          simp
          omega
        · intro hcontra
          simp only [hovf'] at hcontra
          cases hcontra
    · -- overflow: truncate at a boundary
      have hrem : w.buffer.length - w.used < s.length := by omega
      obtain ⟨bs, heq, hbs, hbnc, hbmax⟩ :=
        find_closest_boundary_spec s (w.buffer.length - w.used) hs hrem
      have hbslen : (s.take bs).length = bs := by
        simp [List.length_take]
        omega
      have hbslt : bs < s.length := by omega
      refine ⟨{ buffer := setRange w.buffer w.used (s.take bs),
                used := w.used + bs,
                overflow := true }, ?_, ?_⟩
      · rw [write_str, if_neg (by rw [hovf']; simp), if_neg (by omega)]
        rw [if_neg hfit]
        simp only [heq]
      · have htakecopy : (setRange w.buffer w.used (s.take bs)).take (w.used + bs) =
            w.buffer.take w.used ++ s.take bs := by
          have := @setRange_take_copy w.buffer w.used (s.take bs) (by omega)
          rwa [hbslen] at this
        refine ⟨?_, ?_, ?_, ?_, ?_, ?_⟩
        · rw [setRange_length (by rw [hbslen]; omega), hlen]
        · simp only []
          omega
        · simp only []
          rw [htakecopy, htake, hwr]
          rw [show (w.used : Nat) + bs = written.length + bs from by omega]
          rw [List.take_append]
        · simp only []
          rw [htakecopy]
          refine validUtf8_append _ _ hvalid ?_
          refine validUtf8_take_noncont s bs hs hbslt ?_
          rw [← validUtf8_is_not_first hs hbslt]
          exact hbnc
        · intro hcontra
          simp only [] at hcontra
          cases hcontra
        · intro _
          simp only []
          have hwrittens : validUtf8 (written ++ s) = true := by
            refine validUtf8_append _ _ ?_ hs
            rw [← hwr, ← htake]
            exact hvalid
          refine ⟨by simp; omega, by simp; omega, ?_⟩
          intro k hk hvk
          by_cases hkle : k ≤ w.used + bs
          · exact hkle
          · exfalso
            have hkgt : w.used + bs < k := by omega
            have hkwr : k < (written ++ s).length := by simp; omega
            have hknc :=
              validUtf8_noncont_of_take (written ++ s) k hwrittens hkwr hvk
            have hgd : (written ++ s).getD k 0 = s.getD (k - written.length) 0 := by
              simp [List.getD_eq_getElem?_getD, List.getElem?_append_right
                (by omega : written.length ≤ k)]
            have hjb : is_not_first_utf8 (s.getD (k - written.length) 0) = true := by
              refine hbmax (k - written.length) (by omega) (by omega)
            have hjlt : k - written.length < s.length := by omega
            rw [hgd] at hknc
            rw [validUtf8_is_not_first hs hjlt] at hjb
            rw [hknc] at hjb
            cases hjb

/-- The invariant holds for a freshly constructed sink. -/
theorem sinkInv_new (buf : List Nat) : SinkInv buf.length [] (WriteTo.new buf) := by
  refine ⟨rfl, by simp [WriteTo.new], by simp [WriteTo.new], ?_, by simp [WriteTo.new], ?_⟩
  · simp [WriteTo.new, validUtf8_nil]
  · intro h
    simp [WriteTo.new] at h

/-- Feeding any list of well-formed fragments preserves the invariant,
never panics, and always reports success. -/
theorem writeAll_inv {cap : Nat} :
    ∀ (frags : List (List Nat)) (w : WriteTo) (written : List Nat),
      SinkInv cap written w → (∀ s ∈ frags, validUtf8 s = true) →
      ∃ w', writeAll w frags = some (w', FmtResult.ok) ∧
        SinkInv cap (written ++ frags.flatten) w' := by
  intro frags
  induction frags with
  | nil =>
    intro w written hInv _
    exact ⟨w, by simp [writeAll], by simpa using hInv⟩
  | cons s rest ih =>
    intro w written hInv hv
    obtain ⟨w1, heq1, hInv1⟩ := write_str_inv hInv (hv s (by simp))
    obtain ⟨w2, heq2, hInv2⟩ := ih w1 (written ++ s) hInv1 (fun t ht => hv t (by simp [ht]))
    refine ⟨w2, ?_, ?_⟩
    · rw [writeAll, heq1]
      exact heq2
    · rw [List.flatten_cons, ← List.append_assoc]
      exact hInv2

/-! ### Small consequences used by several claims -/

theorem fcb_loop_le (raw : List Nat) :
    ∀ r n, fcb_loop raw r = some n → n < r := by
  intro r
  induction r with
  | zero => intro n h; simp [fcb_loop] at h
  | succ r ih =>
    intro n h
    rw [fcb_loop] at h
    cases hg : raw.get? r with
    | none => rw [hg] at h; cases h
    | some b =>
      rw [hg] at h
      dsimp only at h
      by_cases hc : is_not_first_utf8 b = true
      · rw [if_pos hc] at h
        have := ih n h
        omega
      · rw [if_neg hc] at h
        cases h
        omega

theorem find_closest_boundary_le (raw : List Nat) (max_len n : Nat)
    (h : find_closest_boundary raw max_len = some n) : n ≤ max_len := by
  rw [find_closest_boundary] at h
  by_cases h0 : max_len = 0
  · rw [if_pos h0] at h
    cases h
    omega
  · rw [if_neg h0] at h
    cases hg : raw.get? max_len with
    | none => rw [hg] at h; cases h
    | some b =>
      rw [hg] at h
      dsimp only at h
      by_cases hc : is_not_first_utf8 b = true
      · simp only [hc, Bool.not_true, Bool.false_eq_true, if_false] at h
        have := fcb_loop_le raw max_len n h
        omega
      · have hc' : is_not_first_utf8 b = false := by simpa using hc
        simp only [hc', Bool.not_false, if_true] at h
        cases h
        omega

/-! ### The claims -/

/-- C2: for every well-formed UTF-8 byte sequence `s` and every
`max_len < s.length`, `find_closest_boundary s max_len` returns (without
panicking) the largest `n ≤ max_len` such that the byte `s[n]` is not a
UTF-8 continuation byte under the bit test `(b & 0xC0) == 0x80`; in
particular it returns `0` when `max_len = 0` and `max_len` itself when
`s[max_len]` is not a continuation byte. -/
theorem C2_find_closest_boundary_largest (s : List Nat) (max_len : Nat)
    (hv : validUtf8 s = true) (hlen : max_len < s.length) :
    ∃ n, find_closest_boundary s max_len = some n ∧
      n ≤ max_len ∧ is_not_first_utf8 (s.getD n 0) = false ∧
      (∀ k, k ≤ max_len → is_not_first_utf8 (s.getD k 0) = false → k ≤ n) ∧
      (max_len = 0 → n = 0) ∧
      (is_not_first_utf8 (s.getD max_len 0) = false → n = max_len) := by
  obtain ⟨n, heq, hle, hnc, hmax⟩ := find_closest_boundary_spec s max_len hv hlen
  refine ⟨n, heq, hle, hnc, ?_, by omega, ?_⟩
  · intro k hk hknc
    by_contra hgt
    have h1 : is_not_first_utf8 (s.getD k 0) = true := hmax k (by omega) hk
    rw [hknc] at h1
    cases h1
  · intro hm
    by_contra hne
    have h1 : is_not_first_utf8 (s.getD max_len 0) = true := hmax max_len (by omega) (by omega)
    rw [hm] at h1
    cases h1

/-- Concrete instantiation of `C2_find_closest_boundary_largest` on the
byte sequence of `"€ "` with `max_len = 2`. -/
theorem C2_witness :
    ∃ n, find_closest_boundary [0xE2, 0x82, 0xAC, 0x20] 2 = some n ∧
      n ≤ 2 ∧ is_not_first_utf8 ([0xE2, 0x82, 0xAC, 0x20].getD n 0) = false ∧
      (∀ k, k ≤ 2 → is_not_first_utf8 ([0xE2, 0x82, 0xAC, 0x20].getD k 0) = false → k ≤ n) ∧
      (2 = 0 → n = 0) ∧
      (is_not_first_utf8 ([0xE2, 0x82, 0xAC, 0x20].getD 2 0) = false → n = 2) :=
  C2_find_closest_boundary_largest [0xE2, 0x82, 0xAC, 0x20] 2 (by decide) (by decide)

/-- C5: on every input allowed by the contract — any buffer (including
length 0) and any sequence of well-formed UTF-8 fragments (including
ones larger than the buffer) — no operation panics: the whole write
sequence produces a result (every slice index in `write_str` is in
bounds), and the backward walk of `find_closest_boundary` terminates
with a result instead of underflowing `res_len` below 1. -/
theorem C5_no_panic :
    (∀ (buffer : List Nat) (frags : List (List Nat)),
      (∀ s ∈ frags, validUtf8 s = true) →
      ∃ w, writeAll (WriteTo.new buffer) frags = some (w, FmtResult.ok)) ∧
    (∀ (s : List Nat) (max_len : Nat), validUtf8 s = true → max_len < s.length →
      ∃ n, find_closest_boundary s max_len = some n) := by
  constructor
  · intro buffer frags hv
    obtain ⟨w, heq, _⟩ := writeAll_inv frags (WriteTo.new buffer) [] (sinkInv_new buffer) hv
    exact ⟨w, heq⟩
  · intro s max_len hv hlen
    obtain ⟨n, heq, _⟩ := find_closest_boundary_spec s max_len hv hlen
    exact ⟨n, heq⟩

/-- Concrete instantiation of `C5_no_panic`: a zero-length buffer with an
oversized fragment, and a walk from inside a 3-byte code point. -/
theorem C5_witness :
    (∃ w, writeAll (WriteTo.new []) [[0x41, 0x42, 0x43]] = some (w, FmtResult.ok)) ∧
    (∃ n, find_closest_boundary [0xE2, 0x82, 0xAC] 1 = some n) :=
  ⟨C5_no_panic.1 [] [[0x41, 0x42, 0x43]] (by decide),
   C5_no_panic.2 [0xE2, 0x82, 0xAC] 1 (by decide) (by decide)⟩

/-- C6: the overflow flag is monotone — once true it stays true for the
whole remaining life of the sink — and a `write_str` call that starts
with the flag set leaves buffer, cursor and flag completely unchanged
and reports success. -/
theorem C6_overflow_monotone :
    (∀ (w : WriteTo) (s : List Nat) (w' : WriteTo) (r : FmtResult),
      write_str w s = some (w', r) → w.overflow = true → w'.overflow = true) ∧
    (∀ (w : WriteTo) (s : List Nat) (w' : WriteTo) (r : FmtResult),
      write_str w s = some (w', r) → w.overflow = true →
        w' = w ∧ r = FmtResult.ok) ∧
    (∀ (w : WriteTo) (frags : List (List Nat)) (w' : WriteTo) (r : FmtResult),
      writeAll w frags = some (w', r) → w.overflow = true → w' = w) := by
  have hnoop : ∀ (w : WriteTo) (s : List Nat) (w' : WriteTo) (r : FmtResult),
      write_str w s = some (w', r) → w.overflow = true →
        w' = w ∧ r = FmtResult.ok := by
    intro w s w' r h hovf
    rw [write_str, if_pos hovf] at h
    simp only [Option.some.injEq, Prod.mk.injEq] at h
    exact ⟨h.1.symm, h.2.symm⟩
  refine ⟨?_, hnoop, ?_⟩
  · intro w s w' r h hovf
    rw [(hnoop w s w' r h hovf).1]
    exact hovf
  · intro w frags
    revert w
    induction frags with
    | nil =>
      intro w w' r h hovf
      rw [writeAll] at h
      simp only [Option.some.injEq, Prod.mk.injEq] at h
      exact h.1.symm
    | cons s rest ih =>
      intro w w' r h hovf
      rw [writeAll, write_str, if_pos hovf] at h
      dsimp only at h
      exact ih w w' r h hovf

/-- Concrete instantiation of `C6_overflow_monotone` at a sink whose
flag is already set. -/
theorem C6_witness :
    ({ buffer := [0x41, 0], used := 1, overflow := true } : WriteTo) =
      { buffer := [0x41, 0], used := 1, overflow := true } ∧
    (FmtResult.ok = FmtResult.ok) :=
  have h := (C6_overflow_monotone.2.1
    { buffer := [0x41, 0], used := 1, overflow := true } [0x42]
    { buffer := [0x41, 0], used := 1, overflow := true } FmtResult.ok
    (by decide) rfl)
  ⟨h.1, h.2⟩

/-- C7: `write_str` never fails: whenever it returns, the `fmt::Result`
is `Ok`, and on every reachable sink state (cursor within bounds) with a
well-formed fragment it does return — including the truncating branch,
so truncation is never reported as an error. -/
theorem C7_write_str_never_errors :
    (∀ (w : WriteTo) (s : List Nat) (out : WriteTo × FmtResult),
      write_str w s = some out → out.2 = FmtResult.ok) ∧
    (∀ (w : WriteTo) (s : List Nat), w.used ≤ w.buffer.length → validUtf8 s = true →
      ∃ w', write_str w s = some (w', FmtResult.ok)) := by
  constructor
  · intro w s out h
    by_cases hovf : w.overflow = true
    · rw [write_str, if_pos hovf] at h
      simp only [Option.some.injEq] at h
      rw [← h]
    · rw [write_str, if_neg hovf] at h
      by_cases hlt : w.buffer.length < w.used
      · rw [if_pos hlt] at h
        cases h
      · rw [if_neg hlt] at h
        dsimp only at h
        by_cases hfit : s.length ≤ w.buffer.length - w.used
        · rw [if_pos hfit] at h
          simp only [Option.some.injEq] at h
          rw [← h]
        · rw [if_neg hfit] at h
          cases hfcb : find_closest_boundary s (w.buffer.length - w.used) with
          | none => rw [hfcb] at h; cases h
          | some bs =>
            rw [hfcb] at h
            dsimp only at h
            simp only [Option.some.injEq] at h
            rw [← h]
  · intro w s hw hs
    by_cases hovf : w.overflow = true
    · exact ⟨w, by rw [write_str, if_pos hovf]⟩
    · have hovf' : w.overflow = false := by simpa using hovf
      by_cases hfit : s.length ≤ w.buffer.length - w.used
      · refine ⟨{ buffer := setRange w.buffer w.used s,
                  used := w.used + s.length,
                  overflow := w.overflow }, ?_⟩
        rw [write_str, if_neg hovf, if_neg (by omega)]
        simp only [if_pos hfit]
      · obtain ⟨bs, heq, _, _, _⟩ :=
          find_closest_boundary_spec s (w.buffer.length - w.used) hs (by omega)
        refine ⟨{ buffer := setRange w.buffer w.used (s.take bs),
                  used := w.used + bs,
                  overflow := true }, ?_⟩
        rw [write_str, if_neg hovf, if_neg (by omega), if_neg hfit]
        simp only [heq]

/-- Concrete instantiation of `C7_write_str_never_errors` on the
truncating branch: a 3-byte code point offered to 1 spare byte. -/
theorem C7_witness :
    (({ buffer := [0x41, 0], used := 1, overflow := false } : WriteTo),
        FmtResult.ok).2 = FmtResult.ok ∧
    (∃ w', write_str { buffer := [0x41, 0], used := 1, overflow := false }
        [0xE2, 0x82, 0xAC] = some (w', FmtResult.ok)) :=
  ⟨C7_write_str_never_errors.1 { buffer := [0, 0], used := 0, overflow := false }
      [0x41] ({ buffer := [0x41, 0], used := 1, overflow := false }, FmtResult.ok)
      (by decide),
   C7_write_str_never_errors.2 { buffer := [0x41, 0], used := 1, overflow := false }
      [0xE2, 0x82, 0xAC] (by decide) (by decide)⟩

/-- C8: whenever the external formatting engine reports failure,
`fmt_truncate` returns the empty string rather than propagating the
error. -/
theorem C8_engine_error_gives_empty (buffer : List Nat) (args : FmtArguments)
    (res bufAfter : List Nat)
    (h : fmt_truncate buffer args = some (res, bufAfter))
    (herr : args.engineErr = true) :
    res = [] := by
  rw [fmt_truncate] at h
  cases hw : writeAll (WriteTo.new buffer) args.frags with
  | none => rw [hw] at h; cases h
  | some p =>
    obtain ⟨w, r⟩ := p
    rw [hw] at h
    cases r with
    | ok =>
      dsimp only at h
      rw [if_pos herr] at h
      simp only [Option.some.injEq, Prod.mk.injEq] at h
      exact h.1.symm
    | error =>
      dsimp only at h
      simp only [Option.some.injEq, Prod.mk.injEq] at h
      exact h.1.symm

/-- Concrete instantiation of `C8_engine_error_gives_empty`. -/
theorem C8_witness : ([] : List Nat) = [] :=
  C8_engine_error_gives_empty [0, 0, 0] ⟨[[0x41]], true⟩ [] [0x41, 0, 0]
    (by decide) rfl

/-- C1: starting from a fresh sink over any buffer (any length,
including 0) and feeding any sequence of well-formed UTF-8 fragments,
the sink invariant holds at every observation point — after any prefix
of the calls — namely `0 ≤ used ≤ buffer.length` and `buffer[0..used]`
is well-formed UTF-8 (never cut mid code point); consequently `as_str`
always returns well-formed UTF-8 bytes. -/
theorem C1_sink_invariant (buffer : List Nat) (frags : List (List Nat))
    (hv : ∀ s ∈ frags, validUtf8 s = true) :
    ∀ pre suf, frags = pre ++ suf →
      ∃ w, writeAll (WriteTo.new buffer) pre = some (w, FmtResult.ok) ∧
        w.used ≤ w.buffer.length ∧
        validUtf8 (w.buffer.take w.used) = true ∧
        validUtf8 w.as_str = true := by
  intro pre suf hsplit
  have hvpre : ∀ s ∈ pre, validUtf8 s = true := by
    intro s hs
    exact hv s (by rw [hsplit]; exact List.mem_append_left _ hs)
  obtain ⟨w, heq, hInv⟩ :=
    writeAll_inv pre (WriteTo.new buffer) [] (sinkInv_new buffer) hvpre
  obtain ⟨hlen, hused, _, hvalid, _, _⟩ := hInv
  refine ⟨w, heq, by omega, hvalid, ?_⟩
  rw [WriteTo.as_str]
  exact hvalid

/-- Concrete instantiation of `C1_sink_invariant`: observation point
after the first of two fragments. -/
theorem C1_witness :
    ∃ w, writeAll (WriteTo.new [7, 7, 7]) [[0x48]] = some (w, FmtResult.ok) ∧
      w.used ≤ w.buffer.length ∧
      validUtf8 (w.buffer.take w.used) = true ∧
      validUtf8 w.as_str = true :=
  C1_sink_invariant [7, 7, 7] [[0x48], [0xE2, 0x82, 0xAC]] (by decide)
    [[0x48]] [[0xE2, 0x82, 0xAC]] rfl

/-- C3: when the concatenated fragments are longer than the buffer (and
the engine succeeds), `fmt_truncate` returns exactly the longest cut of
the concatenation that fits in the buffer and is well-formed UTF-8:
the result is a cut of the concatenation, fits, is well-formed, and no
longer well-formed cut fits. -/
theorem C3_truncation_longest_fit (buffer : List Nat) (args : FmtArguments)
    (hv : ∀ s ∈ args.frags, validUtf8 s = true)
    (hbig : buffer.length < args.frags.flatten.length)
    (hok : args.engineErr = false) :
    ∃ w, writeAll (WriteTo.new buffer) args.frags = some (w, FmtResult.ok) ∧
      fmt_truncate buffer args = some (w.as_str, w.buffer) ∧
      w.as_str = args.frags.flatten.take w.used ∧
      w.used ≤ buffer.length ∧
      validUtf8 w.as_str = true ∧
      (∀ k, k ≤ buffer.length → validUtf8 (args.frags.flatten.take k) = true →
        k ≤ w.used) := by
  obtain ⟨w, heq, hInv⟩ :=
    writeAll_inv args.frags (WriteTo.new buffer) [] (sinkInv_new buffer) hv
  rw [List.nil_append] at hInv
  obtain ⟨hlen, hused, htake, hvalid, hnof, hof⟩ := hInv
  have hovf : w.overflow = true := by
    by_contra hc
    have hc' : w.overflow = false := by simpa using hc
    have := hnof hc'
    omega
  obtain ⟨hcap, husedw, hmax⟩ := hof hovf
  refine ⟨w, heq, ?_, ?_, by omega, ?_, hmax⟩
  · rw [fmt_truncate, heq]
    dsimp only
    rw [hok]
    simp
  · rw [WriteTo.as_str, htake]
  · rw [WriteTo.as_str]
    exact hvalid

/-- Concrete instantiation of `C3_truncation_longest_fit`: `"Add" ++ "€"`
into a 4-byte buffer (the euro sign is dropped whole). -/
theorem C3_witness :
    ∃ w, writeAll (WriteTo.new [0, 0, 0, 0])
        [[0x41, 0x64, 0x64], [0xE2, 0x82, 0xAC]] = some (w, FmtResult.ok) ∧
      fmt_truncate [0, 0, 0, 0] ⟨[[0x41, 0x64, 0x64], [0xE2, 0x82, 0xAC]], false⟩ =
        some (w.as_str, w.buffer) ∧
      w.as_str = ([[0x41, 0x64, 0x64], [0xE2, 0x82, 0xAC]] :
        List (List Nat)).flatten.take w.used ∧
      w.used ≤ ([0, 0, 0, 0] : List Nat).length ∧
      validUtf8 w.as_str = true ∧
      (∀ k, k ≤ ([0, 0, 0, 0] : List Nat).length →
        validUtf8 (([[0x41, 0x64, 0x64], [0xE2, 0x82, 0xAC]] :
          List (List Nat)).flatten.take k) = true → k ≤ w.used) :=
  C3_truncation_longest_fit [0, 0, 0, 0] ⟨[[0x41, 0x64, 0x64], [0xE2, 0x82, 0xAC]], false⟩
    (by decide) (by decide) rfl

/-- C4: when the concatenated fragments fit in the buffer (and the
engine succeeds), `fmt_truncate` returns exactly the untruncated
concatenation, and the overflow flag is never set. -/
theorem C4_exact_when_fits (buffer : List Nat) (args : FmtArguments)
    (hv : ∀ s ∈ args.frags, validUtf8 s = true)
    (hfit : args.frags.flatten.length ≤ buffer.length)
    (hok : args.engineErr = false) :
    ∃ w, writeAll (WriteTo.new buffer) args.frags = some (w, FmtResult.ok) ∧
      fmt_truncate buffer args = some (args.frags.flatten, w.buffer) ∧
      w.as_str = args.frags.flatten ∧
      w.overflow = false := by
  obtain ⟨w, heq, hInv⟩ :=
    writeAll_inv args.frags (WriteTo.new buffer) [] (sinkInv_new buffer) hv
  rw [List.nil_append] at hInv
  obtain ⟨hlen, hused, htake, hvalid, hnof, hof⟩ := hInv
  have hovf : w.overflow = false := by
    by_contra hc
    have hc' : w.overflow = true := by simpa using hc
    obtain ⟨hcap, _, _⟩ := hof hc'
    omega
  have husd : w.used = args.frags.flatten.length := hnof hovf
  have hstr : w.as_str = args.frags.flatten := by
    rw [WriteTo.as_str, htake, husd, List.take_length]
  refine ⟨w, heq, ?_, hstr, hovf⟩
  rw [fmt_truncate, heq]
  dsimp only
  rw [hok]
  simp [hstr]

/-- Concrete instantiation of `C4_exact_when_fits`: `"Hello" ++ "42"`
into a 64-byte buffer. -/
theorem C4_witness :
    ∃ w, writeAll (WriteTo.new (List.replicate 8 0))
        [[0x48, 0x65, 0x6C, 0x6C, 0x6F], [0x34, 0x32]] = some (w, FmtResult.ok) ∧
      fmt_truncate (List.replicate 8 0)
          ⟨[[0x48, 0x65, 0x6C, 0x6C, 0x6F], [0x34, 0x32]], false⟩ =
        some (([[0x48, 0x65, 0x6C, 0x6C, 0x6F], [0x34, 0x32]] :
          List (List Nat)).flatten, w.buffer) ∧
      w.as_str = ([[0x48, 0x65, 0x6C, 0x6C, 0x6F], [0x34, 0x32]] :
        List (List Nat)).flatten ∧
      w.overflow = false :=
  C4_exact_when_fits (List.replicate 8 0)
    ⟨[[0x48, 0x65, 0x6C, 0x6C, 0x6F], [0x34, 0x32]], false⟩
    (by decide) (by decide) rfl

/-- C9: frame property of `write_str` — a call modifies at most the
buffer bytes in the half-open range `[used_before, used_after)`: the
buffer keeps its length, the cursor never moves backwards, every byte
below the old cursor and every byte at or above the new cursor is
unchanged. -/
theorem C9_write_str_frame (w : WriteTo) (s : List Nat) (w' : WriteTo) (r : FmtResult)
    (h : write_str w s = some (w', r)) :
    w'.buffer.length = w.buffer.length ∧
    w.used ≤ w'.used ∧
    (∀ i, i < w.used → w'.buffer.getD i 0 = w.buffer.getD i 0) ∧
    (∀ i, w'.used ≤ i → w'.buffer.getD i 0 = w.buffer.getD i 0) := by
  by_cases hovf : w.overflow = true
  · rw [write_str, if_pos hovf] at h
    simp only [Option.some.injEq, Prod.mk.injEq] at h
    rw [← h.1]
    exact ⟨rfl, le_refl _, fun i _ => rfl, fun i _ => rfl⟩
  · rw [write_str, if_neg hovf] at h
    by_cases hlt : w.buffer.length < w.used
    · rw [if_pos hlt] at h
      cases h
    · rw [if_neg hlt] at h
      dsimp only at h
      by_cases hfit : s.length ≤ w.buffer.length - w.used
      · rw [if_pos hfit] at h
        simp only [Option.some.injEq, Prod.mk.injEq] at h
        obtain ⟨hw', _⟩ := h
        subst hw'
        refine ⟨setRange_length (by omega), by dsimp only; omega, ?_, ?_⟩
        · intro i hi
          exact getD_eq_of_take_eq (setRange_take_low (le_refl _) (by omega)) hi
        · intro i hi
          dsimp only at hi
          exact getD_eq_of_drop_eq (setRange_drop_high (by omega)) hi
      · rw [if_neg hfit] at h
        cases hfcb : find_closest_boundary s (w.buffer.length - w.used) with
        | none => rw [hfcb] at h; cases h
        | some bs =>
          rw [hfcb] at h
          dsimp only at h
          simp only [Option.some.injEq, Prod.mk.injEq] at h
          obtain ⟨hw', _⟩ := h
          subst hw'
          have hbs : bs ≤ w.buffer.length - w.used :=
            find_closest_boundary_le _ _ _ hfcb
          have hbslen : (s.take bs).length = bs := by
            simp [List.length_take]
            omega
          refine ⟨setRange_length (by rw [hbslen]; omega), by dsimp only; omega, ?_, ?_⟩
          · intro i hi
            exact getD_eq_of_take_eq (setRange_take_low (le_refl _) (by omega)) hi
          · intro i hi
            dsimp only at hi
            refine getD_eq_of_drop_eq (setRange_drop_high (by omega)) ?_
            rw [hbslen]
            omega

/-- Concrete instantiation of `C9_write_str_frame`: appending inside a
partly filled buffer. -/
theorem C9_witness :
    ({ buffer := [0x41, 0x42, 0x43, 9], used := 3, overflow := false } :
        WriteTo).buffer.length =
      ({ buffer := [0x41, 9, 9, 9], used := 1, overflow := false } :
        WriteTo).buffer.length ∧
    ({ buffer := [0x41, 9, 9, 9], used := 1, overflow := false } : WriteTo).used ≤
      ({ buffer := [0x41, 0x42, 0x43, 9], used := 3, overflow := false } :
        WriteTo).used ∧
    (∀ i, i < ({ buffer := [0x41, 9, 9, 9], used := 1, overflow := false } :
        WriteTo).used →
      ({ buffer := [0x41, 0x42, 0x43, 9], used := 3, overflow := false } :
          WriteTo).buffer.getD i 0 =
        ({ buffer := [0x41, 9, 9, 9], used := 1, overflow := false } :
          WriteTo).buffer.getD i 0) ∧
    (∀ i, ({ buffer := [0x41, 0x42, 0x43, 9], used := 3, overflow := false } :
        WriteTo).used ≤ i →
      ({ buffer := [0x41, 0x42, 0x43, 9], used := 3, overflow := false } :
          WriteTo).buffer.getD i 0 =
        ({ buffer := [0x41, 9, 9, 9], used := 1, overflow := false } :
          WriteTo).buffer.getD i 0) :=
  C9_write_str_frame { buffer := [0x41, 9, 9, 9], used := 1, overflow := false }
    [0x42, 0x43] { buffer := [0x41, 0x42, 0x43, 9], used := 3, overflow := false }
    FmtResult.ok (by decide)

/-- C10: when the engine fails, the empty-string result of
`fmt_truncate` is independent of the buffer, and the buffer is not
reset: the bytes copied by the `write_str` calls made before the
failure are still in the caller's buffer afterwards (the error path
discards only the view). -/
theorem C10_error_keeps_buffer (buffer : List Nat) (args : FmtArguments)
    (hv : ∀ s ∈ args.frags, validUtf8 s = true)
    (herr : args.engineErr = true) :
    ∃ w, writeAll (WriteTo.new buffer) args.frags = some (w, FmtResult.ok) ∧
      fmt_truncate buffer args = some ([], w.buffer) ∧
      w.buffer.take w.used = args.frags.flatten.take w.used := by
  obtain ⟨w, heq, hInv⟩ :=
    writeAll_inv args.frags (WriteTo.new buffer) [] (sinkInv_new buffer) hv
  rw [List.nil_append] at hInv
  obtain ⟨_, _, htake, _, _, _⟩ := hInv
  refine ⟨w, heq, ?_, htake⟩
  rw [fmt_truncate, heq]
  dsimp only
  rw [if_pos herr]

/-- Concrete instantiation of `C10_error_keeps_buffer`: the fragment
`"A"` is written, then the engine fails; the byte stays in the buffer
while the returned view is empty. -/
theorem C10_witness :
    ∃ w, writeAll (WriteTo.new [0, 0, 0]) [[0x41]] = some (w, FmtResult.ok) ∧
      fmt_truncate [0, 0, 0] ⟨[[0x41]], true⟩ = some ([], w.buffer) ∧
      w.buffer.take w.used = ([[0x41]] : List (List Nat)).flatten.take w.used :=
  C10_error_keeps_buffer [0, 0, 0] ⟨[[0x41]], true⟩ (by decide) rfl
